import Mathlib

/-!
Verification development for the page-enhancement script of the
MassageChairCanada static site.  The repository ships two revisions of the
same file: `src/assets/js/site.js` (v1) and `src/unnamed/part_000` (v2, the
"iOS reliable toggle" revision).  Each behaviour of the script is shallowly
embedded below: DOM attribute values are strings (for the external-link pass,
lists of characters so that splitting and lowercasing can be reasoned about),
the DOM tree for the table-wrap pass is a rose tree, and event-driven parts
become explicit step functions on state records.  Functions of the v1 file
live in namespace `V1`, those of the v2 file in namespace `V2`.
-/

namespace MCC

/-! ## JS string primitives

The external-link pass manipulates the `rel` attribute through
`toLowerCase`, `split(/\s+/)`, `filter(Boolean)`, a `Set` and `join(" ")`.
Strings are modelled as lists of characters. -/

/-- Attribute values for the external-link pass: a string as a character list. -/
abbrev Str := List Char

/-- Character list of a string literal (for concrete inputs in theorems). -/
def chars (s : String) : Str := s.toList

/-- ASCII model of `String.prototype.toLowerCase`: maps `A`..`Z` (code points
65..90) to `a`..`z`, fixing every other character. -/
def jsToLower (c : Char) : Char :=
  if 65 ≤ c.toNat ∧ c.toNat ≤ 90 then Char.ofNat (c.toNat + 32) else c

/-- The character class `\s` of a JS regular expression: whitespace and the
Unicode space separators together with BOM. -/
def jsIsSpace (c : Char) : Bool :=
  c.toNat == 32 || c.toNat == 9 || c.toNat == 10 || c.toNat == 11 || c.toNat == 12 ||
    c.toNat == 13 || c.toNat == 160 || c.toNat == 5760 ||
    (8192 ≤ c.toNat && c.toNat ≤ 8202) || c.toNat == 8232 || c.toNat == 8233 ||
    c.toNat == 8239 || c.toNat == 8287 || c.toNat == 12288 || c.toNat == 65279

/-- Worker for `jsSplitWs`: accumulates the current run of non-space
characters (reversed) and cuts at each space. -/
def splitWsAux : Str → Str → List Str
  | [], acc => [acc.reverse]
  | c :: cs, acc =>
    if jsIsSpace c then acc.reverse :: splitWsAux cs [] else splitWsAux cs (c :: acc)

/-- `s.split(/\s+/)` up to the empty pieces, which the script filters out
right away: splitting at every whitespace character yields the same non-empty
pieces as splitting at whitespace runs. -/
def jsSplitWs (s : Str) : List Str := splitWsAux s []

/-- The token list of a `rel` attribute value:
`rel.split(/\s+/).filter(Boolean)`. -/
def relTokens (s : Str) : List Str := (jsSplitWs s).filter (fun t => t ≠ [])

/-- `Set.prototype.add` on an insertion-ordered set represented as a
duplicate-free list. -/
def setAdd (l : List Str) (t : Str) : List Str := if t ∈ l then l else l ++ [t]

/-- `Array.from(set).join(" ")`. -/
def joinSpace : List Str → Str
  | [] => []
  | [t] => t
  | t :: ts => t ++ ' ' :: joinSpace ts

/-- JS `a || b` on numbers (`0` is falsy), used by the scroll lock. -/
def jsOrN (a b : Nat) : Nat := if a ≠ 0 then a else b

end MCC

namespace MCC.V1

/-- Embedding of the body of `initExternalLinks` (site.js lines 329-337) at a
single `target="_blank"` link: from the `rel` attribute (absent = `none`) the
new attribute value.  The script lowercases the attribute, splits it on
whitespace, drops empty pieces, pours the tokens into a `Set`, adds
`noopener` and `noreferrer`, and joins the set with single spaces. -/
def hardenRel (rel : Option MCC.Str) : MCC.Str :=
  let lower := (rel.getD []).map MCC.jsToLower
  let relSet := (MCC.relTokens lower).foldl MCC.setAdd []
  let relSet2 := [MCC.chars "noopener", MCC.chars "noreferrer"].foldl MCC.setAdd relSet
  MCC.joinSpace relSet2

end MCC.V1

namespace MCC

/-! ## Facts about the string primitives -/

theorem toNat_ofNat_valid (n : Nat) (h : n < 55296) : (Char.ofNat n).toNat = n := by
  simp [Char.ofNat, Nat.isValidChar, h, Char.ofNatAux, Char.toNat, UInt32.toNat,
    BitVec.toNat_ofNatLt]

theorem jsToLower_idem (c : Char) : jsToLower (jsToLower c) = jsToLower c := by
  unfold jsToLower
  split
  · next h =>
    have h2 : (Char.ofNat (c.toNat + 32)).toNat = c.toNat + 32 :=
      toNat_ofNat_valid _ (by omega)
    rw [if_neg]
    omega
  · rfl

theorem jsIsSpace_jsToLower (c : Char) (h : jsIsSpace c = false) :
    jsIsSpace (jsToLower c) = false := by
  unfold jsToLower
  split
  · next hr =>
    have h2 : (Char.ofNat (c.toNat + 32)).toNat = c.toNat + 32 :=
      toNat_ofNat_valid _ (by omega)
    simp only [jsIsSpace, h2, Bool.or_eq_false_iff, Bool.and_eq_false_iff,
      beq_eq_false_iff_ne, decide_eq_false_iff_not]
    omega
  · exact h

theorem mem_setAdd (l : List Str) (t x : Str) : x ∈ setAdd l t ↔ x ∈ l ∨ x = t := by
  unfold setAdd
  split
  · next h =>
    constructor
    · exact Or.inl
    · rintro (hx | rfl)
      · exact hx
      · exact h
  · simp [List.mem_append]

theorem mem_foldl_setAdd (l : List Str) (acc : List Str) (x : Str) :
    x ∈ l.foldl setAdd acc ↔ x ∈ acc ∨ x ∈ l := by
  induction l generalizing acc with
  | nil => simp
  | cons t ts ih =>
    rw [List.foldl_cons, ih, mem_setAdd]
    simp only [List.mem_cons]
    tauto

theorem nodup_setAdd (l : List Str) (t : Str) (h : l.Nodup) : (setAdd l t).Nodup := by
  unfold setAdd
  split
  · exact h
  · next hn => simpa [List.nodup_append] using ⟨h, hn⟩

theorem nodup_foldl_setAdd (l : List Str) (acc : List Str) (h : acc.Nodup) :
    (l.foldl setAdd acc).Nodup := by
  induction l generalizing acc with
  | nil => exact h
  | cons t ts ih => exact ih _ (nodup_setAdd _ _ h)

theorem foldl_setAdd_self (l acc : List Str) (h : (acc ++ l).Nodup) :
    l.foldl setAdd acc = acc ++ l := by
  induction l generalizing acc with
  | nil => simp
  | cons t ts ih =>
    rw [List.foldl_cons]
    have hna : t ∉ acc := by
      intro hx
      have := List.disjoint_of_nodup_append h
      exact this hx (List.mem_cons_self t ts)
    have hstep : setAdd acc t = acc ++ [t] := by
      unfold setAdd
      rw [if_neg hna]
    rw [hstep]
    rw [ih (acc ++ [t]) (by simpa using h)]
    simp

theorem splitWsAux_append (t s acc : Str) (h : ∀ c ∈ t, jsIsSpace c = false) :
    splitWsAux (t ++ s) acc = splitWsAux s (t.reverse ++ acc) := by
  induction t generalizing acc with
  | nil => simp
  | cons c cs ih =>
    rw [List.cons_append, splitWsAux, if_neg]
    · rw [ih _ (fun x hx => h x (List.mem_cons_of_mem c hx))]
      simp
    · simp [h c (List.mem_cons_self c cs)]

theorem relTokens_joinSpace (toks : List Str) (hne : ∀ t ∈ toks, t ≠ [])
    (hws : ∀ t ∈ toks, ∀ c ∈ t, jsIsSpace c = false) :
    relTokens (joinSpace toks) = toks := by
  induction toks with
  | nil => rfl
  | cons t ts ih =>
    cases ts with
    | nil =>
      have hne2 : t ≠ [] := hne t (by simp)
      have hws2 : ∀ c ∈ t, jsIsSpace c = false := hws t (by simp)
      show relTokens (joinSpace [t]) = [t]
      have hj : joinSpace [t] = t := rfl
      rw [hj]
      unfold relTokens jsSplitWs
      have h1 : splitWsAux t [] = [t] := by
        have h2 := splitWsAux_append t [] [] hws2
        rw [List.append_nil] at h2
        rw [h2, splitWsAux]
        simp
      rw [h1, List.filter_cons, if_pos (by simpa using hne2)]
      rfl
    | cons t2 ts2 =>
      have hjoin : joinSpace (t :: t2 :: ts2) = t ++ ' ' :: joinSpace (t2 :: ts2) := rfl
      rw [hjoin]
      unfold relTokens jsSplitWs
      rw [splitWsAux_append _ _ _ (fun c hc => hws t (by simp) c hc)]
      rw [splitWsAux, if_pos (by decide)]
      simp only [List.append_nil, List.reverse_reverse]
      have hte : t ≠ [] := hne t (by simp)
      rw [List.filter_cons, if_pos (by simpa using hte)]
      have ihr := ih (fun x hx => hne x (List.mem_cons_of_mem t hx))
        (fun x hx => hws x (List.mem_cons_of_mem t hx))
      unfold relTokens jsSplitWs at ihr
      rw [ihr]

theorem splitWsAux_wsfree (s : Str) (acc : Str) (hacc : ∀ c ∈ acc, jsIsSpace c = false) :
    ∀ t ∈ splitWsAux s acc, ∀ c ∈ t, jsIsSpace c = false := by
  induction s generalizing acc with
  | nil =>
    intro t ht c hc
    rw [splitWsAux] at ht
    simp only [List.mem_singleton] at ht
    subst ht
    exact hacc c (List.mem_reverse.mp hc)
  | cons c0 cs ih =>
    intro t ht c hc
    rw [splitWsAux] at ht
    by_cases hsp : jsIsSpace c0 = true
    · rw [if_pos hsp] at ht
      rcases List.mem_cons.mp ht with rfl | ht2
      · exact hacc c (List.mem_reverse.mp hc)
      · exact ih [] (by simp) t ht2 c hc
    · rw [if_neg hsp] at ht
      refine ih (c0 :: acc) ?_ t ht c hc
      intro x hx
      rcases List.mem_cons.mp hx with rfl | hx2
      · simpa using hsp
      · exact hacc x hx2

theorem splitWsAux_chars (s : Str) (acc : Str) :
    ∀ t ∈ splitWsAux s acc, ∀ c ∈ t, c ∈ s ∨ c ∈ acc := by
  induction s generalizing acc with
  | nil =>
    intro t ht c hc
    rw [splitWsAux] at ht
    simp only [List.mem_singleton] at ht
    subst ht
    exact Or.inr (List.mem_reverse.mp hc)
  | cons c0 cs ih =>
    intro t ht c hc
    rw [splitWsAux] at ht
    by_cases hsp : jsIsSpace c0 = true
    · rw [if_pos hsp] at ht
      rcases List.mem_cons.mp ht with rfl | ht2
      · exact Or.inr (List.mem_reverse.mp hc)
      · rcases ih [] t ht2 c hc with h1 | h1
        · exact Or.inl (List.mem_cons_of_mem c0 h1)
        · simp at h1
    · rw [if_neg hsp] at ht
      rcases ih (c0 :: acc) t ht c hc with h1 | h1
      · exact Or.inl (List.mem_cons_of_mem c0 h1)
      · rcases List.mem_cons.mp h1 with rfl | h2
        · exact Or.inl (List.mem_cons_self _ _)
        · exact Or.inr h2

theorem joinSpace_chars (l : List Str) :
    ∀ c ∈ joinSpace l, (∃ t ∈ l, c ∈ t) ∨ c = ' ' := by
  induction l with
  | nil => intro c hc; simp [joinSpace] at hc
  | cons t ts ih =>
    cases ts with
    | nil =>
      intro c hc
      exact Or.inl ⟨t, by simp, hc⟩
    | cons t2 ts2 =>
      intro c hc
      have hjoin : joinSpace (t :: t2 :: ts2) = t ++ ' ' :: joinSpace (t2 :: ts2) := rfl
      rw [hjoin] at hc
      rcases List.mem_append.mp hc with h1 | h1
      · exact Or.inl ⟨t, by simp, h1⟩
      · rcases List.mem_cons.mp h1 with rfl | h2
        · exact Or.inr rfl
        · rcases ih c h2 with ⟨u, hu, hcu⟩ | h3
          · exact Or.inl ⟨u, List.mem_cons_of_mem t hu, hcu⟩
          · exact Or.inr h3

theorem map_id_of_mem (f : Char → Char) (l : Str) (h : ∀ c ∈ l, f c = c) : l.map f = l := by
  induction l with
  | nil => rfl
  | cons c cs ih =>
    rw [List.map_cons, h c (List.mem_cons_self c cs),
      ih (fun x hx => h x (List.mem_cons_of_mem c hx))]

theorem jsIsSpace_fix (c : Char) (h : jsIsSpace c = true) : jsToLower c = c := by
  unfold jsToLower
  rw [if_neg]
  simp only [jsIsSpace, Bool.or_eq_true, Bool.and_eq_true, beq_iff_eq,
    decide_eq_true_eq] at h
  omega

theorem jsIsSpace_toLower_eq (c : Char) : jsIsSpace (jsToLower c) = jsIsSpace c := by
  by_cases h : jsIsSpace c = true
  · rw [jsIsSpace_fix c h, h]
  · have h2 : jsIsSpace c = false := by revert h; cases jsIsSpace c <;> simp
    rw [h2, jsIsSpace_jsToLower c h2]

theorem splitWsAux_map (s acc : Str) :
    splitWsAux (s.map jsToLower) (acc.map jsToLower)
      = (splitWsAux s acc).map (List.map jsToLower) := by
  induction s generalizing acc with
  | nil =>
    rw [List.map_nil, splitWsAux, splitWsAux, List.map_cons, List.map_nil, List.map_reverse]
  | cons c cs ih =>
    rw [List.map_cons, splitWsAux, splitWsAux, jsIsSpace_toLower_eq]
    by_cases h : jsIsSpace c = true
    · rw [if_pos h, if_pos h, List.map_cons, List.map_reverse]
      have h2 := ih []
      rw [List.map_nil] at h2
      rw [h2]
    · rw [if_neg h, if_neg h]
      have h2 := ih (c :: acc)
      rw [List.map_cons] at h2
      rw [h2]

theorem relTokens_map (s : Str) :
    relTokens (s.map jsToLower) = (relTokens s).map (List.map jsToLower) := by
  unfold relTokens jsSplitWs
  have h1 := splitWsAux_map s []
  rw [List.map_nil] at h1
  rw [h1, List.filter_map]
  refine congrArg (List.map (List.map jsToLower)) (List.filter_congr ?_)
  intro t _
  simp [Function.comp, List.map_eq_nil_iff]

/-- The insertion-ordered token set that `initExternalLinks` builds for a
link: the lowercased attribute's tokens followed by whichever of the two
security tokens were missing. -/
def relSetOf (rel : Option Str) : List Str :=
  [chars "noopener", chars "noreferrer"].foldl setAdd
    ((relTokens ((rel.getD []).map jsToLower)).foldl setAdd [])

theorem hardenRel_eq (rel : Option Str) : V1.hardenRel rel = joinSpace (relSetOf rel) := rfl

theorem mem_relSetOf (rel : Option Str) (x : Str) :
    x ∈ relSetOf rel ↔
      x ∈ relTokens ((rel.getD []).map jsToLower) ∨
        x = chars "noopener" ∨ x = chars "noreferrer" := by
  unfold relSetOf
  rw [mem_foldl_setAdd, mem_foldl_setAdd]
  simp

theorem nodup_relSetOf (rel : Option Str) : (relSetOf rel).Nodup :=
  nodup_foldl_setAdd _ _ (nodup_foldl_setAdd _ _ List.nodup_nil)

theorem relSetOf_ne_nil (rel : Option Str) (x : Str) (hx : x ∈ relSetOf rel) : x ≠ [] := by
  rcases (mem_relSetOf rel x).mp hx with h | h | h
  · unfold relTokens at h
    have := List.of_mem_filter h
    simpa using this
  · subst h; decide
  · subst h; decide

theorem relSetOf_wsfree (rel : Option Str) (x : Str) (hx : x ∈ relSetOf rel) :
    ∀ c ∈ x, jsIsSpace c = false := by
  rcases (mem_relSetOf rel x).mp hx with h | h | h
  · unfold relTokens at h
    have h2 := List.mem_of_mem_filter h
    exact splitWsAux_wsfree _ [] (by simp) x h2
  · subst h; decide
  · subst h; decide

theorem relSetOf_stable (rel : Option Str) (x : Str) (hx : x ∈ relSetOf rel) :
    ∀ c ∈ x, jsToLower c = c := by
  rcases (mem_relSetOf rel x).mp hx with h | h | h
  · intro c hc
    unfold relTokens at h
    have h2 := List.mem_of_mem_filter h
    have h3 := splitWsAux_chars _ [] x h2 c hc
    rcases h3 with h3 | h3
    · rcases List.mem_map.mp h3 with ⟨c2, _, rfl⟩
      exact jsToLower_idem c2
    · simp at h3
  · subst h; decide
  · subst h; decide

theorem relTokens_hardenRel (rel : Option Str) :
    relTokens (V1.hardenRel rel) = relSetOf rel := by
  rw [hardenRel_eq]
  exact relTokens_joinSpace _ (relSetOf_ne_nil rel) (relSetOf_wsfree rel)

theorem hardenRel_idem (rel : Option Str) :
    V1.hardenRel (some (V1.hardenRel rel)) = V1.hardenRel rel := by
  have hstable : (V1.hardenRel rel).map jsToLower = V1.hardenRel rel := by
    apply map_id_of_mem
    intro c hc
    rw [hardenRel_eq] at hc
    rcases joinSpace_chars _ c hc with ⟨t, ht, hct⟩ | h
    · exact relSetOf_stable rel t ht c hct
    · subst h; decide
  rw [hardenRel_eq (some (V1.hardenRel rel))]
  unfold relSetOf
  rw [Option.getD_some, hstable, relTokens_hardenRel]
  rw [foldl_setAdd_self _ [] (by simpa using nodup_relSetOf rel), List.nil_append]
  have hno : chars "noopener" ∈ relSetOf rel := (mem_relSetOf rel _).mpr (Or.inr (Or.inl rfl))
  have hnr : chars "noreferrer" ∈ relSetOf rel := (mem_relSetOf rel _).mpr (Or.inr (Or.inr rfl))
  rw [List.foldl_cons, List.foldl_cons, List.foldl_nil]
  unfold setAdd
  rw [if_pos hno, if_pos hnr, hardenRel_eq]

/-! ## Claim C1 -/

/-- C1 counterexample: the claim as stated is false on the code.  A link with
`rel="NOFOLLOW"` has the token `NOFOLLOW` before the hardening pass, but not
afterwards: `initExternalLinks` lowercases the whole attribute, so the pass
rewrites the attribute to `nofollow noopener noreferrer`. -/
theorem c1_uppercase_token_lost :
    chars "NOFOLLOW" ∈ relTokens (chars "NOFOLLOW") ∧
      chars "NOFOLLOW" ∉ relTokens (V1.hardenRel (some (chars "NOFOLLOW"))) := by
  decide

/-- C1 (amended): after the external-link hardening pass the `rel` attribute
contains the tokens `noopener` and `noreferrer`; every token present before
the pass is still present afterwards up to ASCII lowercasing (the pass
lowercases the attribute before splitting it); and re-running the pass on the
resulting attribute leaves it unchanged, exactly — so the token set is stable
under any number of repetitions, and no other pass of the script writes the
`rel` attribute. -/
theorem c1_external_links (rel : Option Str) :
    chars "noopener" ∈ relTokens (V1.hardenRel rel) ∧
      chars "noreferrer" ∈ relTokens (V1.hardenRel rel) ∧
      (∀ t ∈ relTokens (rel.getD []), t.map jsToLower ∈ relTokens (V1.hardenRel rel)) ∧
      V1.hardenRel (some (V1.hardenRel rel)) = V1.hardenRel rel := by
  refine ⟨?_, ?_, ?_, hardenRel_idem rel⟩
  · rw [relTokens_hardenRel]
    exact (mem_relSetOf rel _).mpr (Or.inr (Or.inl rfl))
  · rw [relTokens_hardenRel]
    exact (mem_relSetOf rel _).mpr (Or.inr (Or.inr rfl))
  · intro t ht
    rw [relTokens_hardenRel, mem_relSetOf]
    left
    rw [relTokens_map]
    exact List.mem_map_of_mem _ ht

/-- C1 witness: the amended theorem applied at a concrete link whose `rel`
attribute is `NOFOLLOW external`. -/
theorem c1_external_links_witness :
    (chars "nofollow" ∈
        relTokens (V1.hardenRel (some (chars "NOFOLLOW external")))) ∧
      chars "noopener" ∈ relTokens (V1.hardenRel (some (chars "NOFOLLOW external"))) := by
  refine ⟨?_, (c1_external_links (some (chars "NOFOLLOW external"))).1⟩
  have h := (c1_external_links (some (chars "NOFOLLOW external"))).2.2.1
    (chars "NOFOLLOW") (by decide)
  have he : (chars "NOFOLLOW").map jsToLower = chars "nofollow" := by decide
  rw [he] at h
  exact h

/-! ## The mobile menu drawer, the scroll lock and focus

State touched by `setOpen` and `scrollLock` (site.js lines 29-52 and 82-95):
the `data-open` attributes of drawer and scrim, the toggle's `aria-expanded`,
the inline body styles the scroll lock writes, the page scroll position, the
scroll lock's saved `_y`, and the focused element.  Attributes are `Option
String` (`none` = attribute absent, as `getAttribute` returns null). -/

/-- An element that can hold focus: the drawer, the toggle button, or any
other element (numbered). -/
inductive FocusTarget where
  | drawerEl
  | btnEl
  | otherEl (n : Nat)
deriving DecidableEq, Repr

structure PageState where
  drawerOpen : Option String
  scrimOpen : Option String
  btnExpanded : Option String
  bodyPosition : String
  bodyTop : String
  bodyLeft : String
  bodyRight : String
  bodyWidth : String
  htmlScrollBehavior : String
  scrollY : Nat
  lockY : Nat
  activeElement : FocusTarget
  lastFocus : Option FocusTarget
deriving DecidableEq, Repr

end MCC

namespace MCC.V1

/-- `scrollLock.lock` (site.js lines 31-39): records
`window.scrollY || document.documentElement.scrollTop || 0` (both reads are
the page scroll position) in `_y`, forces instant scroll behaviour, and fixes
the body at `-_y` pixels. -/
def lock (s : MCC.PageState) : MCC.PageState :=
  let y := MCC.jsOrN (MCC.jsOrN s.scrollY s.scrollY) 0
  { s with
    lockY := y
    htmlScrollBehavior := "auto"
    bodyPosition := "fixed"
    bodyTop := "-" ++ toString y ++ "px"
    bodyLeft := "0"
    bodyRight := "0"
    bodyWidth := "100%" }

/-- `scrollLock.unlock` (site.js lines 40-51): clears every body style the
lock set, scrolls back to `_y || 0`, zeroes `_y` and restores the scroll
behaviour. -/
def unlock (s : MCC.PageState) : MCC.PageState :=
  let y := MCC.jsOrN s.lockY 0
  { s with
    bodyPosition := ""
    bodyTop := ""
    bodyLeft := ""
    bodyRight := ""
    bodyWidth := ""
    scrollY := y
    lockY := 0
    htmlScrollBehavior := "" }

/-- `safeFocus` (site.js lines 25-27): focuses the element when there is one;
a null element is a no-op. -/
def safeFocus (t : Option MCC.FocusTarget) (s : MCC.PageState) : MCC.PageState :=
  match t with
  | none => s
  | some el => { s with activeElement := el }

/-- `isOpen` (site.js line 80): the drawer's `data-open` attribute equals
`"true"`. -/
def isOpen (s : MCC.PageState) : Bool := s.drawerOpen == some "true"

/-- `setOpen` (site.js lines 82-95): writes `data-open` on drawer and scrim
and `aria-expanded` on the toggle; on open it captures the focused element,
locks scroll and focuses the drawer; on close it unlocks scroll and focuses
the captured element, falling back to the toggle. -/
def setOpen (b : Bool) (s : MCC.PageState) : MCC.PageState :=
  let s1 := { s with
    drawerOpen := some (if b then "true" else "false")
    scrimOpen := some (if b then "true" else "false")
    btnExpanded := some (if b then "true" else "false") }
  if b then
    let s2 := { s1 with lastFocus := some s1.activeElement }
    safeFocus (some MCC.FocusTarget.drawerEl) (lock s2)
  else
    safeFocus (some (s1.lastFocus.getD MCC.FocusTarget.btnEl)) (unlock s1)

end MCC.V1

namespace MCC

/-! ## Claims C2 and C3 -/

/-- C2: opening the drawer (`setOpen true`) sets the drawer's and the scrim's
`data-open` attribute and the toggle's `aria-expanded` attribute to `"true"`;
closing (`setOpen false`) sets all three to `"false"`. -/
theorem c2_set_open_attributes (s : PageState) :
    (V1.setOpen true s).drawerOpen = some "true" ∧
      (V1.setOpen true s).scrimOpen = some "true" ∧
      (V1.setOpen true s).btnExpanded = some "true" ∧
      (V1.setOpen false s).drawerOpen = some "false" ∧
      (V1.setOpen false s).scrimOpen = some "false" ∧
      (V1.setOpen false s).btnExpanded = some "false" := by
  refine ⟨?_, ?_, ?_, ?_, ?_, ?_⟩ <;>
    simp [V1.setOpen, V1.lock, V1.unlock, V1.safeFocus]

theorem jsOrN_self_zero (y : Nat) : jsOrN (jsOrN y y) 0 = y := by
  unfold jsOrN
  split
  · rfl
  · next h => omega

/-- C3: locking then unlocking restores the scroll position recorded at lock
time — which is the starting position — and clears every body style the lock
set (`position`, `top`, `left`, `right`, `width`). -/
theorem c3_scroll_lock_roundtrip (s : PageState) :
    (V1.unlock (V1.lock s)).scrollY = (V1.lock s).lockY ∧
      (V1.lock s).lockY = s.scrollY ∧
      (V1.unlock (V1.lock s)).bodyPosition = "" ∧
      (V1.unlock (V1.lock s)).bodyTop = "" ∧
      (V1.unlock (V1.lock s)).bodyLeft = "" ∧
      (V1.unlock (V1.lock s)).bodyRight = "" ∧
      (V1.unlock (V1.lock s)).bodyWidth = "" := by
  have hy : jsOrN (jsOrN s.scrollY s.scrollY) 0 = s.scrollY := jsOrN_self_zero s.scrollY
  refine ⟨?_, ?_, rfl, rfl, rfl, rfl, rfl⟩
  · show jsOrN (V1.lock s).lockY 0 = (V1.lock s).lockY
    unfold jsOrN
    split
    · rfl
    · omega
  · show jsOrN (jsOrN s.scrollY s.scrollY) 0 = s.scrollY
    exact hy

/-! ## Anchor scrolling

`initAnchors` (site.js lines 148-178) is a document-level click handler; its
effect on one click is a pure function of the clicked link's `href`, the set
of elements with ids, the topbar height and the motion preference. -/

/-- An element that a hash link can target: its id and its document-relative
top position (`getBoundingClientRect().top + window.pageYOffset`). -/
structure Anchor where
  id : Str
  docTop : Int
deriving DecidableEq, Repr

structure AnchorDoc where
  topbarHeight : Option Int
  reducedMotion : Bool
  targets : List Anchor
deriving DecidableEq, Repr

inductive ScrollBehavior where
  | auto
  | smooth
deriving DecidableEq, Repr

/-- What one click produces: whether default navigation was prevented, the
`scrollTo` top and behaviour, the fragment pushed onto the URL, and the
element focused. -/
structure ClickEffect where
  prevented : Bool
  scrollTop : Option Int
  behavior : Option ScrollBehavior
  fragment : Option Str
  focusedId : Option Str
deriving DecidableEq, Repr

/-- The effect of a click the handler ignores. -/
def noEffect : ClickEffect :=
  { prevented := false, scrollTop := none, behavior := none, fragment := none,
    focusedId := none }

end MCC

namespace MCC.V1

/-- `headerOffset` (site.js lines 54-59): the topbar's ceiled height (0
without a topbar) plus 10, clamped to 0. -/
def headerOffset (d : MCC.AnchorDoc) : Int :=
  let h := match d.topbarHeight with
    | some hb => hb
    | none => 0
  max 0 (h + 10)

/-- The `initAnchors` click handler (site.js lines 149-177) on a click whose
nearest enclosing `a[href^="#"]` link has the given `href` (no such link:
the handler returns at once, which the head check models).  `#` alone and
fragments naming no element return before `preventDefault`; otherwise the
handler prevents default, scrolls to the target's document top minus the
header offset clamped at 0 — instantly under reduced motion, smoothly
otherwise — pushes the fragment and focuses the target. -/
def anchorClick (d : MCC.AnchorDoc) (href : MCC.Str) : MCC.ClickEffect :=
  if href.head? ≠ some '#' then MCC.noEffect
  else if href = ['#'] then MCC.noEffect
  else
    let id := href.drop 1
    match d.targets.find? (fun t => t.id == id) with
    | none => MCC.noEffect
    | some t =>
      { prevented := true
        scrollTop := some (max 0 (t.docTop - headerOffset d))
        behavior := some (if d.reducedMotion then MCC.ScrollBehavior.auto
          else MCC.ScrollBehavior.smooth)
        fragment := some id
        focusedId := some t.id }

end MCC.V1

namespace MCC

/-! ## Claim C4 -/

/-- A concrete document refuting C4 as stated: no topbar (so the header
compensation is 10) and a target `a` whose document top is 5. -/
def clampDoc : AnchorDoc :=
  { topbarHeight := none, reducedMotion := false, targets := [⟨chars "a", 5⟩] }

/-- C4 counterexample: the handler's scroll destination is
`Math.max(0, top - headerOffset())`, not `top - headerOffset()`.  For a
target whose document top (5) is smaller than the header compensation (10)
the destination is 0, not -5 as the claim states. -/
theorem c4_clamped_destination :
    (V1.anchorClick clampDoc (chars "#a")).scrollTop = some 0 ∧
      (5 : Int) - V1.headerOffset clampDoc = -5 ∧ (0 : Int) ≠ -5 := by
  refine ⟨?_, by decide, by decide⟩
  decide

/-- C4 (amended): for a click on a same-page hash link with a non-empty
fragment naming an existing element, default navigation is prevented, the
scroll destination is the target's document-relative top minus the
header-height compensation clamped below at 0, the behaviour is instant
exactly when reduced motion is requested, and the URL fragment becomes the
target's id; a click on a link whose `href` is exactly `#`, or whose
fragment names no element, changes nothing. -/
theorem c4_anchor_click (d : AnchorDoc) (id : Str) (t : Anchor)
    (hne : id ≠ [])
    (hfind : d.targets.find? (fun a => a.id == id) = some t) :
    (V1.anchorClick d ('#' :: id)).prevented = true ∧
      (V1.anchorClick d ('#' :: id)).scrollTop
        = some (max 0 (t.docTop - V1.headerOffset d)) ∧
      (V1.anchorClick d ('#' :: id)).behavior
        = some (if d.reducedMotion then ScrollBehavior.auto else ScrollBehavior.smooth) ∧
      (V1.anchorClick d ('#' :: id)).fragment = some t.id ∧
      V1.anchorClick d ['#'] = noEffect ∧
      (∀ href : Str, href.head? = some '#' →
        d.targets.find? (fun a => a.id == href.drop 1) = none →
        V1.anchorClick d href = noEffect) := by
  have hid : t.id = id := by
    have h1 := List.find?_some hfind
    exact beq_iff_eq.mp h1
  have hmain : V1.anchorClick d ('#' :: id)
      = { prevented := true
          scrollTop := some (max 0 (t.docTop - V1.headerOffset d))
          behavior := some (if d.reducedMotion then ScrollBehavior.auto
            else ScrollBehavior.smooth)
          fragment := some id
          focusedId := some t.id } := by
    unfold V1.anchorClick
    rw [if_neg (by simp)]
    rw [if_neg (by simpa using hne)]
    simp only [List.drop_one, List.tail_cons]
    rw [hfind]
  refine ⟨by rw [hmain], by rw [hmain], by rw [hmain], ?_, ?_, ?_⟩
  · rw [hmain, hid]
  · unfold V1.anchorClick
    rw [if_neg (by simp), if_pos rfl]
  · intro href hhead hnone
    unfold V1.anchorClick
    rw [if_neg (by simp [hhead])]
    by_cases hsh : href = ['#']
    · rw [if_pos hsh]
    · rw [if_neg hsh]
      simp only [hnone]

/-- C4 witness: the amended theorem at a document with a 40px topbar and a
target `sec` at document top 300, reduced motion off. -/
theorem c4_anchor_click_witness :
    (V1.anchorClick
        { topbarHeight := some 40, reducedMotion := false,
          targets := [⟨chars "sec", 300⟩] }
        ('#' :: chars "sec")).scrollTop = some 250 := by
  have h := (c4_anchor_click
    { topbarHeight := some 40, reducedMotion := false, targets := [⟨chars "sec", 300⟩] }
    (chars "sec") ⟨chars "sec", 300⟩ (by decide) (by decide)).2.1
  rw [h]
  decide

/-! ## Active-section highlighting

`initActiveNav` (site.js lines 185-228) observes the sections that the nav
links reference.  Per notification batch the callback filters the
intersecting entries, stable-sorts them by descending
`intersectionRatio || 0` and, when at least one intersects, clears the
active class everywhere and sets it on the links mapped to the first
(most visible) entry's target id.  Links are their `href` strings (each
starts with `#`); the active classes are a Boolean list parallel to the
link list. -/

/-- JS `a || b` on numbers where only zero is falsy, for
`intersectionRatio || 0` (the ratio is scaled to an integer). -/
def jsOrI (a b : Int) : Int := if a ≠ 0 then a else b

/-- One entry of an IntersectionObserver notification batch. -/
structure IEntry where
  targetId : Str
  isIntersecting : Bool
  ratio : Int
deriving DecidableEq, Repr

/-- The sort key `x.intersectionRatio || 0` of the callback's comparator. -/
def entryKey (e : IEntry) : Int := jsOrI e.ratio 0

end MCC

namespace MCC.V1

/-- Insertion step of the stable descending sort on
`intersectionRatio || 0` (JS `sort((a, b) => (b.r || 0) - (a.r || 0))`,
which since ES2019 is a stable sort). -/
def sortInsert (x : MCC.IEntry) : List MCC.IEntry → List MCC.IEntry
  | [] => [x]
  | y :: ys =>
    if MCC.entryKey y > MCC.entryKey x then y :: sortInsert x ys else x :: y :: ys

/-- Stable descending sort by `intersectionRatio || 0`. -/
def sortByRatio : List MCC.IEntry → List MCC.IEntry
  | [] => []
  | x :: xs => sortInsert x (sortByRatio xs)

/-- `entries.filter(x => x.isIntersecting).sort(...)[0]` of the callback. -/
def chooseVisible (entries : List MCC.IEntry) : Option MCC.IEntry :=
  (sortByRatio (entries.filter (fun e => e.isIntersecting))).head?

/-- One run of the observer callback (site.js lines 207-219) over the nav
links' active classes: with no intersecting entry it returns at once;
otherwise it clears every link and activates exactly the links whose
fragment is the chosen target's id (`mapIdToLinks` maps an id to the links
whose `href.slice(1)` equals it). -/
def navBatch (links : List MCC.Str) (entries : List MCC.IEntry)
    (flags : List Bool) : List Bool :=
  match chooseVisible entries with
  | none => flags
  | some v => links.map (fun href => href.drop 1 == v.targetId)

end MCC.V1

namespace MCC

/-- The ids of the links currently carrying the active class. -/
def activeIds (links : List Str) (flags : List Bool) : List Str :=
  ((links.zip flags).filter (fun lf => lf.2)).map (fun lf => lf.1.drop 1)

/-- At most one section id has active links. -/
def atMostOneActive (links : List Str) (flags : List Bool) : Prop :=
  ∀ a ∈ activeIds links flags, ∀ b ∈ activeIds links flags, a = b

theorem mem_sortInsert (x z : IEntry) (l : List IEntry) :
    z ∈ V1.sortInsert x l ↔ z = x ∨ z ∈ l := by
  induction l with
  | nil => simp [V1.sortInsert]
  | cons y ys ih =>
    rw [V1.sortInsert]
    split
    · rw [List.mem_cons, ih]
      simp only [List.mem_cons]
      tauto
    · simp only [List.mem_cons]

theorem mem_sortByRatio (z : IEntry) (l : List IEntry) :
    z ∈ V1.sortByRatio l ↔ z ∈ l := by
  induction l with
  | nil => simp [V1.sortByRatio]
  | cons x xs ih =>
    rw [V1.sortByRatio, mem_sortInsert, ih, List.mem_cons]

theorem sortByRatio_head_max (l : List IEntry) :
    ∀ v, (V1.sortByRatio l).head? = some v →
      v ∈ l ∧ ∀ e ∈ l, entryKey e ≤ entryKey v := by
  induction l with
  | nil => intro v h; simp [V1.sortByRatio] at h
  | cons x xs ih =>
    intro v h
    rw [V1.sortByRatio] at h
    cases hs : V1.sortByRatio xs with
    | nil =>
      rw [hs, V1.sortInsert] at h
      simp only [List.head?_cons, Option.some.injEq] at h
      subst h
      refine ⟨List.mem_cons_self _ _, ?_⟩
      intro e he
      rcases List.mem_cons.mp he with rfl | he2
      · exact le_refl _
      · exact absurd ((mem_sortByRatio e xs).mpr he2) (by rw [hs]; simp)
    | cons y ys =>
      have hy := ih y (by rw [hs]; rfl)
      rw [hs, V1.sortInsert] at h
      by_cases hk : entryKey y > entryKey x
      · rw [if_pos hk] at h
        simp only [List.head?_cons, Option.some.injEq] at h
        subst h
        refine ⟨List.mem_cons_of_mem _ hy.1, ?_⟩
        intro e he
        rcases List.mem_cons.mp he with rfl | he2
        · exact le_of_lt hk
        · exact hy.2 e he2
      · rw [if_neg hk] at h
        simp only [List.head?_cons, Option.some.injEq] at h
        subst h
        have hyx : entryKey y ≤ entryKey x := by omega
        refine ⟨List.mem_cons_self _ _, ?_⟩
        intro e he
        rcases List.mem_cons.mp he with rfl | he2
        · exact le_refl _
        · exact le_trans (hy.2 e he2) hyx

theorem activeIds_of_map (links : List Str) (f : Str → Bool) :
    ∀ a ∈ activeIds links (links.map f),
      ∃ href ∈ links, f href = true ∧ a = href.drop 1 := by
  induction links with
  | nil => intro a ha; simp [activeIds] at ha
  | cons h hs ih =>
    intro a ha
    unfold activeIds at ha
    rw [List.map_cons, List.zip_cons_cons, List.filter_cons] at ha
    by_cases hf : f h = true
    · rw [if_pos (by simpa using hf), List.map_cons] at ha
      rcases List.mem_cons.mp ha with rfl | ha2
      · exact ⟨h, List.mem_cons_self _ _, hf, rfl⟩
      · rcases ih a ha2 with ⟨href, hm, hfh, he⟩
        exact ⟨href, List.mem_cons_of_mem _ hm, hfh, he⟩
    · rw [if_neg (by simpa using hf)] at ha
      rcases ih a ha with ⟨href, hm, hfh, he⟩
      exact ⟨href, List.mem_cons_of_mem _ hm, hfh, he⟩

theorem atMostOne_navBatch (links : List Str) (es : List IEntry) (fl : List Bool)
    (h : atMostOneActive links fl) :
    atMostOneActive links (V1.navBatch links es fl) := by
  unfold V1.navBatch
  cases hc : V1.chooseVisible es with
  | none => exact h
  | some v =>
    intro a ha b hb
    rcases activeIds_of_map links _ a ha with ⟨h1, _, hf1, he1⟩
    rcases activeIds_of_map links _ b hb with ⟨h2, _, hf2, he2⟩
    have e1 : h1.drop 1 = v.targetId := beq_iff_eq.mp hf1
    have e2 : h2.drop 1 = v.targetId := beq_iff_eq.mp hf2
    rw [he1, he2, e1, e2]

theorem atMostOne_init (links : List Str) :
    atMostOneActive links (links.map (fun _ => false)) := by
  intro a ha
  rcases activeIds_of_map links _ a ha with ⟨_, _, hf, _⟩
  simp at hf

/-! ## Claim C5 -/

/-- C5: the highlighter invariant.  Starting from no active link, after any
sequence of notification batches at most one section id has active links;
and a batch with at least one intersecting entry activates exactly the links
mapped to an intersecting target of maximal visible ratio, clearing all
others. -/
theorem c5_active_nav (links : List Str) (batches : List (List IEntry)) :
    atMostOneActive links
        (batches.foldl (fun fl es => V1.navBatch links es fl)
          (links.map (fun _ => false))) ∧
      (∀ (entries : List IEntry) (flags : List Bool),
        (∃ e ∈ entries, e.isIntersecting = true) →
        ∃ v ∈ entries, v.isIntersecting = true ∧
          (∀ e ∈ entries, e.isIntersecting = true → entryKey e ≤ entryKey v) ∧
          V1.navBatch links entries flags
            = links.map (fun href => href.drop 1 == v.targetId)) := by
  constructor
  · have hgen : ∀ (bs : List (List IEntry)) (fl : List Bool),
        atMostOneActive links fl →
        atMostOneActive links (bs.foldl (fun f es => V1.navBatch links es f) fl) := by
      intro bs
      induction bs with
      | nil => intro fl h; exact h
      | cons es rest ih =>
        intro fl h
        exact ih _ (atMostOne_navBatch links es fl h)
    exact hgen batches _ (atMostOne_init links)
  · intro entries flags hex
    rcases hex with ⟨e0, he0, hi0⟩
    have hmem : e0 ∈ entries.filter (fun e => e.isIntersecting) :=
      List.mem_filter.mpr ⟨he0, hi0⟩
    cases hs : V1.sortByRatio (entries.filter (fun e => e.isIntersecting)) with
    | nil =>
      exact absurd ((mem_sortByRatio _ _).mpr hmem) (by rw [hs]; simp)
    | cons v vs =>
      have hhead : (V1.sortByRatio (entries.filter (fun e => e.isIntersecting))).head?
          = some v := by rw [hs]; rfl
      have hmax := sortByRatio_head_max _ v hhead
      have hvf := List.mem_filter.mp hmax.1
      refine ⟨v, hvf.1, by simpa using hvf.2, ?_, ?_⟩
      · intro e he hie
        exact hmax.2 e (List.mem_filter.mpr ⟨he, hie⟩)
      · unfold V1.navBatch V1.chooseVisible
        rw [hhead]

/-- C5 witness: the batch part of the theorem at a concrete two-entry batch
in which section `b` is the more visible. -/
theorem c5_active_nav_witness :
    ∃ v ∈ [(⟨chars "a", true, 25⟩ : IEntry), ⟨chars "b", true, 50⟩],
      v.isIntersecting = true ∧
        (∀ e ∈ [(⟨chars "a", true, 25⟩ : IEntry), ⟨chars "b", true, 50⟩],
          e.isIntersecting = true → entryKey e ≤ entryKey v) ∧
        V1.navBatch [chars "#a", chars "#b"]
            [⟨chars "a", true, 25⟩, ⟨chars "b", true, 50⟩] [false, false]
          = [chars "#a", chars "#b"].map
              (fun href => href.drop 1 == v.targetId) :=
  (c5_active_nav [chars "#a", chars "#b"] []).2
    [⟨chars "a", true, 25⟩, ⟨chars "b", true, 50⟩] [false, false]
    ⟨⟨chars "a", true, 25⟩, by decide, by decide⟩

/-! ## Table wrapping

`initTableWrap` (site.js lines 234-249) snapshots every `table` element,
skips those whose parent already carries the `table-wrap` class and those
inside a `pre` or `code` block, and moves each remaining table into a fresh
`div.table-wrap` inserted at the table's position.  The document is a rose
tree; the pass is the equivalent recursive traversal (each wrap is local:
it changes no other table's parent class and adds only a non-`pre` `div` to
descendants' ancestor chains, so snapshot iteration and traversal produce the
same document). -/

/-- A DOM element: tag name, class list, children in order. -/
inductive Node where
  | el (tag : String) (classes : List String) (children : List Node)

/-- `classList.contains("table-wrap")`. -/
def hasWrapClass (cls : List String) : Bool := cls.contains "table-wrap"

end MCC

namespace MCC.V1

mutual

/-- The table-wrap pass below one node.  `pw` says whether the node's parent
carries the `table-wrap` class, `pre` whether some ancestor is a `pre` or
`code` element (what `table.closest("pre, code")` finds, the table's own tag
never being `pre` or `code`). -/
def processNode (pw pre : Bool) : MCC.Node → MCC.Node
  | .el t cls ch =>
    let pre2 := pre || t == "pre" || t == "code"
    let c := MCC.Node.el t cls (processList (MCC.hasWrapClass cls) pre2 ch)
    if t == "table" && !pw && !pre then MCC.Node.el "div" ["table-wrap"] [c] else c

/-- The table-wrap pass over a sibling list. -/
def processList (pw pre : Bool) : List MCC.Node → List MCC.Node
  | [] => []
  | c :: rest => processNode pw pre c :: processList pw pre rest

end

end MCC.V1

namespace MCC

mutual

/-- No table below this node is still eligible for wrapping in context
(`pw`, `pre`). -/
def nodeClean (pw pre : Bool) : Node → Bool
  | .el t cls ch =>
    (!(t == "table") || pw || pre) &&
      listClean (hasWrapClass cls) (pre || t == "pre" || t == "code") ch

def listClean (pw pre : Bool) : List Node → Bool
  | [] => true
  | c :: rest => nodeClean pw pre c && listClean pw pre rest

end

theorem processNode_table (cls : List String) (ch : List Node) :
    V1.processNode false false (Node.el "table" cls ch)
      = Node.el "div" ["table-wrap"]
          [Node.el "table" cls (V1.processList (hasWrapClass cls) false ch)] := by
  rw [V1.processNode]
  simp

theorem processNode_skip (pw pre : Bool) (t : String) (cls : List String)
    (ch : List Node) (h : (t == "table" && !pw && !pre) = false) :
    V1.processNode pw pre (Node.el t cls ch)
      = Node.el t cls
          (V1.processList (hasWrapClass cls) (pre || t == "pre" || t == "code") ch) := by
  rw [V1.processNode]
  simp [h]

mutual

theorem nodeClean_processNode (pw pre : Bool) (x : Node) :
    nodeClean pw pre (V1.processNode pw pre x) = true := by
  cases x with
  | el t cls ch =>
    by_cases hw : (t == "table" && !pw && !pre) = true
    · have ht : t = "table" := by
        simp only [Bool.and_eq_true, beq_iff_eq] at hw
        exact hw.1.1
      have hpw : pw = false := by
        simp only [Bool.and_eq_true, Bool.not_eq_true'] at hw
        exact hw.1.2
      have hpre : pre = false := by
        simp only [Bool.and_eq_true, Bool.not_eq_true'] at hw
        exact hw.2
      subst ht; subst hpw; subst hpre
      rw [processNode_table, nodeClean, listClean, nodeClean, listClean, Bool.and_eq_true,
        Bool.and_eq_true, Bool.and_eq_true]
      refine ⟨by decide, ⟨by decide, ?_⟩, rfl⟩
      have hf : (false || "div" == "pre" || "div" == "code" || "table" == "pre"
          || "table" == "code") = false := by decide
      rw [hf]
      exact listClean_processList (hasWrapClass cls) false ch
    · rw [processNode_skip pw pre t cls ch
        (by revert hw; cases h : (t == "table" && !pw && !pre) <;> simp)]
      rw [nodeClean, Bool.and_eq_true]
      constructor
      · revert hw
        cases t == "table" <;> cases pw <;> cases pre <;> decide
      · exact listClean_processList _ _ ch

theorem listClean_processList (pw pre : Bool) (l : List Node) :
    listClean pw pre (V1.processList pw pre l) = true := by
  cases l with
  | nil => rfl
  | cons c rest =>
    rw [V1.processList, listClean, Bool.and_eq_true]
    exact ⟨nodeClean_processNode pw pre c, listClean_processList pw pre rest⟩

end

mutual

theorem processNode_of_clean (pw pre : Bool) (x : Node)
    (h : nodeClean pw pre x = true) : V1.processNode pw pre x = x := by
  cases x with
  | el t cls ch =>
    rw [nodeClean, Bool.and_eq_true] at h
    have h2 := processList_of_clean _ _ ch h.2
    have hcond : (t == "table" && !pw && !pre) = false := by
      have h1 := h.1
      revert h1
      cases t == "table" <;> cases pw <;> cases pre <;> decide
    rw [processNode_skip pw pre t cls ch hcond, h2]

theorem processList_of_clean (pw pre : Bool) (l : List Node)
    (h : listClean pw pre l = true) : V1.processList pw pre l = l := by
  cases l with
  | nil => rfl
  | cons c rest =>
    rw [listClean, Bool.and_eq_true] at h
    rw [V1.processList, processNode_of_clean _ _ _ h.1, processList_of_clean _ _ _ h.2]

end

theorem processList_append (pw pre : Bool) (l1 l2 : List Node) :
    V1.processList pw pre (l1 ++ l2)
      = V1.processList pw pre l1 ++ V1.processList pw pre l2 := by
  induction l1 with
  | nil => rfl
  | cons c rest ih =>
    rw [List.cons_append, V1.processList, V1.processList, ih, List.cons_append]

/-! ## Claim C6 -/

/-- C6: the table-wrap pass is idempotent — running it on its own output
changes nothing, in any context — and it wraps an eligible table (parent not
carrying the wrapper class, no `pre`/`code` ancestor) in exactly one new
`div.table-wrap` at the table's former position among its siblings. -/
theorem c6_table_wrap (pw pre : Bool) (x : Node) (l1 l2 : List Node)
    (cls : List String) (ch : List Node) :
    V1.processNode pw pre (V1.processNode pw pre x) = V1.processNode pw pre x ∧
      (pw = false → pre = false →
        V1.processList pw pre (l1 ++ Node.el "table" cls ch :: l2)
          = V1.processList pw pre l1
            ++ Node.el "div" ["table-wrap"]
                [Node.el "table" cls (V1.processList (hasWrapClass cls) false ch)]
              :: V1.processList pw pre l2) := by
  constructor
  · exact processNode_of_clean _ _ _ (nodeClean_processNode pw pre x)
  · intro hpw hpre
    subst hpw; subst hpre
    rw [processList_append, V1.processList, processNode_table]

/-- C6 witness: the theorem at a concrete one-table sibling list and a
concrete node. -/
theorem c6_table_wrap_witness :
    V1.processList false false ([] ++ Node.el "table" [] [] :: [])
      = [] ++ Node.el "div" ["table-wrap"]
            [Node.el "table" [] (V1.processList (hasWrapClass []) false [])] :: [] :=
  (c6_table_wrap false false (Node.el "p" [] []) [] [] [] []).2 rfl rfl

/-! ## Copy-link buttons

`initCopyLinks` (site.js lines 256-288) selects `h2[id], h3[id]`, and for
each heading not yet marked `data-copylink="done"` sets the marker and
appends one button.  A heading records its tag, whether it has an `id`
attribute, its `data-copylink` value, and how many copy-link buttons hang
off it. -/

structure Heading where
  tag : String
  idAttr : Option String
  copylink : Option String
  btns : Nat
deriving DecidableEq, Repr

/-- Membership in the selector `h2[id], h3[id]`. -/
def isHead (h : Heading) : Bool := (h.tag == "h2" || h.tag == "h3") && h.idAttr.isSome

end MCC

namespace MCC.V1

/-- The per-heading body of `initCopyLinks` (site.js lines 262-287): skip a
heading already marked done, otherwise mark it and append one button. -/
def processHeading (h : MCC.Heading) : MCC.Heading :=
  if h.copylink = some "done" then h
  else { h with copylink := some "done", btns := h.btns + 1 }

/-- `initCopyLinks` over the document's headings, given whether
`navigator.clipboard` exists (without it the pass returns at once), as does a
document with no selected heading. -/
def initCopyLinks (clipboard : Bool) (doc : List MCC.Heading) : List MCC.Heading :=
  if !clipboard then doc
  else if (doc.filter MCC.isHead).isEmpty then doc
  else doc.map (fun h => if MCC.isHead h then processHeading h else h)

end MCC.V1

namespace MCC

theorem processHeading_idem (h : Heading) :
    V1.processHeading (V1.processHeading h) = V1.processHeading h := by
  unfold V1.processHeading
  split
  · rfl
  · simp

theorem isHead_processHeading (h : Heading) : isHead (V1.processHeading h) = isHead h := by
  unfold V1.processHeading
  split
  · rfl
  · rfl

theorem mem_of_idx {α : Type} (l : List α) (i : Nat) (a : α) (h : l[i]? = some a) :
    a ∈ l := by
  induction l generalizing i with
  | nil => simp at h
  | cons x xs ih =>
    cases i with
    | zero =>
      rw [List.getElem?_cons_zero, Option.some.injEq] at h
      rw [h]
      exact List.mem_cons_self _ _
    | succ n =>
      rw [List.getElem?_cons_succ] at h
      exact List.mem_cons_of_mem _ (ih n h)

/-! ## Claim C7 -/

/-- C7: with clipboard support, the copy-link pass appends exactly one button
to every `h2`/`h3` heading that has an id and is not yet marked done, marks
it done, leaves every other heading untouched, and running the pass again
appends no second button (the pass on its own output is the identity). -/
theorem c7_copy_links (doc : List Heading) :
    (V1.initCopyLinks true doc).length = doc.length ∧
      (∀ (i : Nat) (h : Heading), doc[i]? = some h →
        (isHead h = true → h.copylink ≠ some "done" →
          (V1.initCopyLinks true doc)[i]?
            = some { h with copylink := some "done", btns := h.btns + 1 }) ∧
          (isHead h = false ∨ h.copylink = some "done" →
            (V1.initCopyLinks true doc)[i]? = some h)) ∧
      V1.initCopyLinks true (V1.initCopyLinks true doc) = V1.initCopyLinks true doc := by
  by_cases hemp : (doc.filter isHead).isEmpty = true
  · have hout : V1.initCopyLinks true doc = doc := by
      unfold V1.initCopyLinks
      rw [if_neg (by decide), if_pos hemp]
    refine ⟨by rw [hout], ?_, by rw [hout, hout]⟩
    intro i h hsome
    have hmem : h ∈ doc := mem_of_idx doc i h hsome
    have hno : isHead h = false := by
      rcases hh : isHead h with _ | _
      · rfl
      · have hm : h ∈ doc.filter isHead := List.mem_filter.mpr ⟨hmem, hh⟩
        rw [List.isEmpty_iff] at hemp
        rw [hemp] at hm
        simp at hm
    refine ⟨by intro hc; rw [hc] at hno; simp at hno, fun _ => by rw [hout]; exact hsome⟩
  · have hout : V1.initCopyLinks true doc
        = doc.map (fun h => if isHead h then V1.processHeading h else h) := by
      unfold V1.initCopyLinks
      rw [if_neg (by decide), if_neg hemp]
    refine ⟨by rw [hout]; simp, ?_, ?_⟩
    · intro i h hsome
      have hel : (V1.initCopyLinks true doc)[i]?
          = some (if isHead h then V1.processHeading h else h) := by
        rw [hout, List.getElem?_map, hsome]
        rfl
      constructor
      · intro hh hc
        rw [hel, if_pos hh]
        unfold V1.processHeading
        rw [if_neg hc]
      · intro hor
        rcases hor with hh | hc
        · rw [hel, if_neg (by rw [hh]; decide)]
        · rw [hel]
          split
          · unfold V1.processHeading
            rw [if_pos hc]
          · rfl
    · rw [hout]
      unfold V1.initCopyLinks
      rw [if_neg (by decide)]
      split
      · rfl
      · rw [List.map_map]
        refine List.map_congr_left ?_
        intro h _
        simp only [Function.comp]
        by_cases hh : isHead h = true
        · have hh2 : isHead (V1.processHeading h) = true := by
            rw [isHead_processHeading, hh]
          rw [if_pos hh, if_pos hh2, processHeading_idem]
        · have hnot : ¬ isHead h = true := hh
          rw [if_neg hnot, if_neg hnot]

/-- C7 witness: the theorem at a two-heading document, one fresh `h2` with an
id and one already-processed heading. -/
theorem c7_copy_links_witness :
    (V1.initCopyLinks true
        [⟨"h2", some "intro", none, 0⟩, ⟨"h3", some "body", some "done", 1⟩])[0]?
        = some ⟨"h2", some "intro", some "done", 1⟩ ∧
      (V1.initCopyLinks true
        [⟨"h2", some "intro", none, 0⟩, ⟨"h3", some "body", some "done", 1⟩])[1]?
        = some ⟨"h3", some "body", some "done", 1⟩ := by
  have h := (c7_copy_links
    [⟨"h2", some "intro", none, 0⟩, ⟨"h3", some "body", some "done", 1⟩]).2.1
  refine ⟨?_, (h 1 ⟨"h3", some "body", some "done", 1⟩ rfl).2 (Or.inr rfl)⟩
  exact (h 0 ⟨"h2", some "intro", none, 0⟩ rfl).1 (by decide) (by decide)

/-! ## Lazy iframes

`initLazyIframes` (site.js lines 295-323) selects `iframe[data-src]`.
Without IntersectionObserver support it loads each at once; with support it
observes each, and the callback loads and unobserves an entry's target when
it intersects.  `load` copies `data-src` into `src` and sets
`data-loaded="true"`, skipping iframes already marked loaded. -/

structure Iframe where
  dataSrc : Option String
  src : Option String
  loadedAttr : Option String
  observed : Bool
deriving DecidableEq, Repr

end MCC

namespace MCC.V1

/-- `load` (site.js lines 299-303). -/
def load (f : MCC.Iframe) : MCC.Iframe :=
  if f.loadedAttr = some "true" then f
  else { f with src := f.dataSrc, loadedAttr := some "true" }

/-- `initLazyIframes` over the document's iframes, given IntersectionObserver
support. -/
def initLazyIframes (ioSupported : Bool) (doc : List MCC.Iframe) : List MCC.Iframe :=
  if (doc.filter (fun f => f.dataSrc.isSome)).isEmpty then doc
  else if !ioSupported then doc.map (fun f => if f.dataSrc.isSome then load f else f)
  else doc.map (fun f => if f.dataSrc.isSome then { f with observed := true } else f)

/-- The observer callback (site.js lines 311-317) at one entry: an
intersecting target is loaded and unobserved, any other is untouched. -/
def ioEntryStep (isInter : Bool) (f : MCC.Iframe) : MCC.Iframe :=
  if isInter then { load f with observed := false } else f

end MCC.V1

namespace MCC

/-! ## Claim C8 -/

/-- C8: a fresh iframe carrying `data-src` gets its real `src` immediately at
initialization when IntersectionObserver is unsupported; with support, the
callback on an intersecting entry assigns `src` and unobserves the iframe; in
both cases `data-loaded="true"` is set, and loading an already-loaded iframe
changes nothing. -/
theorem c8_lazy_iframes (doc : List Iframe) (f : Iframe) :
    (V1.initLazyIframes false doc).length = doc.length ∧
      (∀ (i : Nat) (g : Iframe), doc[i]? = some g →
        g.dataSrc.isSome = true → g.loadedAttr ≠ some "true" →
          (V1.initLazyIframes false doc)[i]?
            = some { g with src := g.dataSrc, loadedAttr := some "true" }) ∧
      (f.loadedAttr ≠ some "true" →
        (V1.ioEntryStep true f).src = f.dataSrc ∧
          (V1.ioEntryStep true f).loadedAttr = some "true" ∧
          (V1.ioEntryStep true f).observed = false) ∧
      (f.loadedAttr = some "true" → V1.load f = f) ∧
      V1.load (V1.load f) = V1.load f := by
  refine ⟨?_, ?_, ?_, ?_, ?_⟩
  · unfold V1.initLazyIframes
    split
    · rfl
    · rw [if_pos (by decide)]
      simp
  · intro i g hsome hsrc hld
    by_cases hemp : (doc.filter (fun g2 => g2.dataSrc.isSome)).isEmpty = true
    · exfalso
      have hm : g ∈ doc.filter (fun g2 => g2.dataSrc.isSome) :=
        List.mem_filter.mpr ⟨mem_of_idx doc i g hsome, by simpa using hsrc⟩
      rw [List.isEmpty_iff] at hemp
      rw [hemp] at hm
      simp at hm
    · have hout : V1.initLazyIframes false doc
          = doc.map (fun g2 => if g2.dataSrc.isSome then V1.load g2 else g2) := by
        unfold V1.initLazyIframes
        rw [if_neg hemp, if_pos (by decide)]
      have hel : (V1.initLazyIframes false doc)[i]?
          = some (if g.dataSrc.isSome then V1.load g else g) := by
        rw [hout, List.getElem?_map, hsome]
        rfl
      rw [hel, if_pos hsrc]
      unfold V1.load
      rw [if_neg hld]
  · intro hld
    unfold V1.ioEntryStep V1.load
    rw [if_pos rfl, if_neg hld]
    exact ⟨rfl, rfl, rfl⟩
  · intro hld
    unfold V1.load
    rw [if_pos hld]
  · unfold V1.load
    split
    · rfl
    · simp

/-- C8 witness: the theorem at a one-iframe document without observer
support and at a fresh iframe hit by an intersecting entry. -/
theorem c8_lazy_iframes_witness :
    (V1.initLazyIframes false [⟨some "https://e/v", none, none, false⟩])[0]?
        = some ⟨some "https://e/v", some "https://e/v", some "true", false⟩ ∧
      (V1.ioEntryStep true ⟨some "https://e/v", none, none, true⟩).observed = false := by
  have h := c8_lazy_iframes [⟨some "https://e/v", none, none, false⟩]
    ⟨some "https://e/v", none, none, true⟩
  refine ⟨?_, (h.2.2.1 (by decide)).2.2⟩
  exact h.2.1 0 ⟨some "https://e/v", none, none, false⟩ rfl (by decide) (by decide)

/-! ## Amazon meta chip

`initAmazonMetaChip` (site.js lines 344-354): a `.btn.btn--amazon` button
gets one `span.btn-meta` chip appended unless it already contains one.  A
button is its number of chip descendants. -/

structure CtaButton where
  metaChips : Nat
deriving DecidableEq, Repr

end MCC

namespace MCC.V1

/-- `initAmazonMetaChip` over the `.btn.btn--amazon` buttons. -/
def initAmazonMetaChip (btns : List MCC.CtaButton) : List MCC.CtaButton :=
  btns.map (fun b => if b.metaChips ≠ 0 then b else { b with metaChips := b.metaChips + 1 })

end MCC.V1

/-! ## The v2 file (src/unnamed/part_000)

Everything below embeds the second shipped revision.  Its helpers and
passes are character-for-character those of v1; `initMobileMenu` gains the
touch wiring with the `ignoreClick` guard (part_000 lines 98-136), embedded
as an event-driven state machine. -/

namespace MCC.V2

/-- v2 `initExternalLinks` body at one link (part_000 lines 338-346). -/
def hardenRel (rel : Option MCC.Str) : MCC.Str :=
  let lower := (rel.getD []).map MCC.jsToLower
  let relSet := (MCC.relTokens lower).foldl MCC.setAdd []
  let relSet2 := [MCC.chars "noopener", MCC.chars "noreferrer"].foldl MCC.setAdd relSet
  MCC.joinSpace relSet2

/-- v2 `scrollLock.lock` (part_000 lines 27-35). -/
def lock (s : MCC.PageState) : MCC.PageState :=
  let y := MCC.jsOrN (MCC.jsOrN s.scrollY s.scrollY) 0
  { s with
    lockY := y
    htmlScrollBehavior := "auto"
    bodyPosition := "fixed"
    bodyTop := "-" ++ toString y ++ "px"
    bodyLeft := "0"
    bodyRight := "0"
    bodyWidth := "100%" }

/-- v2 `scrollLock.unlock` (part_000 lines 36-46). -/
def unlock (s : MCC.PageState) : MCC.PageState :=
  let y := MCC.jsOrN s.lockY 0
  { s with
    bodyPosition := ""
    bodyTop := ""
    bodyLeft := ""
    bodyRight := ""
    bodyWidth := ""
    scrollY := y
    lockY := 0
    htmlScrollBehavior := "" }

/-- v2 `safeFocus` (part_000 lines 21-23). -/
def safeFocus (t : Option MCC.FocusTarget) (s : MCC.PageState) : MCC.PageState :=
  match t with
  | none => s
  | some el => { s with activeElement := el }

/-- v2 `isOpen` (part_000 line 73). -/
def isOpen (s : MCC.PageState) : Bool := s.drawerOpen == some "true"

/-- v2 `setOpen` (part_000 lines 75-88). -/
def setOpen (b : Bool) (s : MCC.PageState) : MCC.PageState :=
  let s1 := { s with
    drawerOpen := some (if b then "true" else "false")
    scrimOpen := some (if b then "true" else "false")
    btnExpanded := some (if b then "true" else "false") }
  if b then
    let s2 := { s1 with lastFocus := some s1.activeElement }
    safeFocus (some MCC.FocusTarget.drawerEl) (lock s2)
  else
    safeFocus (some (s1.lastFocus.getD MCC.FocusTarget.btnEl)) (unlock s1)

/-- v2 `toggle` (part_000 line 90). -/
def toggle (p : MCC.PageState) : MCC.PageState := setOpen (!(isOpen p)) p

/-- v2 `headerOffset` (part_000 lines 49-53). -/
def headerOffset (d : MCC.AnchorDoc) : Int :=
  let h := match d.topbarHeight with
    | some hb => hb
    | none => 0
  max 0 (h + 10)

/-- v2 `initAnchors` click handler (part_000 lines 176-200). -/
def anchorClick (d : MCC.AnchorDoc) (href : MCC.Str) : MCC.ClickEffect :=
  if href.head? ≠ some '#' then MCC.noEffect
  else if href = ['#'] then MCC.noEffect
  else
    let id := href.drop 1
    match d.targets.find? (fun t => t.id == id) with
    | none => MCC.noEffect
    | some t =>
      { prevented := true
        scrollTop := some (max 0 (t.docTop - headerOffset d))
        behavior := some (if d.reducedMotion then MCC.ScrollBehavior.auto
          else MCC.ScrollBehavior.smooth)
        fragment := some id
        focusedId := some t.id }

/-- v2 insertion step of the stable descending ratio sort. -/
def sortInsert (x : MCC.IEntry) : List MCC.IEntry → List MCC.IEntry
  | [] => [x]
  | y :: ys =>
    if MCC.entryKey y > MCC.entryKey x then y :: sortInsert x ys else x :: y :: ys

/-- v2 stable descending sort by `intersectionRatio || 0`. -/
def sortByRatio : List MCC.IEntry → List MCC.IEntry
  | [] => []
  | x :: xs => sortInsert x (sortByRatio xs)

/-- v2 `entries.filter(x => x.isIntersecting).sort(...)[0]`. -/
def chooseVisible (entries : List MCC.IEntry) : Option MCC.IEntry :=
  (sortByRatio (entries.filter (fun e => e.isIntersecting))).head?

/-- v2 observer callback over the nav links (part_000 lines 226-236). -/
def navBatch (links : List MCC.Str) (entries : List MCC.IEntry)
    (flags : List Bool) : List Bool :=
  match chooseVisible entries with
  | none => flags
  | some v => links.map (fun href => href.drop 1 == v.targetId)

mutual

/-- v2 table-wrap pass below one node (part_000 lines 250-264). -/
def processNode (pw pre : Bool) : MCC.Node → MCC.Node
  | .el t cls ch =>
    let pre2 := pre || t == "pre" || t == "code"
    let c := MCC.Node.el t cls (processList (MCC.hasWrapClass cls) pre2 ch)
    if t == "table" && !pw && !pre then MCC.Node.el "div" ["table-wrap"] [c] else c

/-- v2 table-wrap pass over a sibling list. -/
def processList (pw pre : Bool) : List MCC.Node → List MCC.Node
  | [] => []
  | c :: rest => processNode pw pre c :: processList pw pre rest

end

/-- v2 per-heading body of `initCopyLinks` (part_000 lines 275-299). -/
def processHeading (h : MCC.Heading) : MCC.Heading :=
  if h.copylink = some "done" then h
  else { h with copylink := some "done", btns := h.btns + 1 }

/-- v2 `initCopyLinks` (part_000 lines 269-300). -/
def initCopyLinks (clipboard : Bool) (doc : List MCC.Heading) : List MCC.Heading :=
  if !clipboard then doc
  else if (doc.filter MCC.isHead).isEmpty then doc
  else doc.map (fun h => if MCC.isHead h then processHeading h else h)

/-- v2 `load` (part_000 lines 309-313). -/
def load (f : MCC.Iframe) : MCC.Iframe :=
  if f.loadedAttr = some "true" then f
  else { f with src := f.dataSrc, loadedAttr := some "true" }

/-- v2 `initLazyIframes` (part_000 lines 305-333). -/
def initLazyIframes (ioSupported : Bool) (doc : List MCC.Iframe) : List MCC.Iframe :=
  if (doc.filter (fun f => f.dataSrc.isSome)).isEmpty then doc
  else if !ioSupported then doc.map (fun f => if f.dataSrc.isSome then load f else f)
  else doc.map (fun f => if f.dataSrc.isSome then { f with observed := true } else f)

/-- v2 observer callback at one entry (part_000 lines 321-327). -/
def ioEntryStep (isInter : Bool) (f : MCC.Iframe) : MCC.Iframe :=
  if isInter then { load f with observed := false } else f

/-- v2 `initAmazonMetaChip` (part_000 lines 351-361). -/
def initAmazonMetaChip (btns : List MCC.CtaButton) : List MCC.CtaButton :=
  btns.map (fun b => if b.metaChips ≠ 0 then b else { b with metaChips := b.metaChips + 1 })

end MCC.V2

namespace MCC

/-! ## The v2 mobile-menu event wiring (part_000 lines 98-136)

`btn.addEventListener("touchend", ...)` sets `ignoreClick`, toggles and
schedules `ignoreClick = false` 450ms later; the click handlers return at
once while `ignoreClick` holds.  Events carry the time they fire at; timers
scheduled by earlier touches fire before any later event is handled. -/

inductive Ev where
  | touchBtn (t : Nat)
  | clickBtn (t : Nat)
  | touchScrim (t : Nat)
  | clickScrim (t : Nat)
deriving DecidableEq, Repr

/-- When an event fires. -/
def Ev.time : Ev → Nat
  | Ev.touchBtn t => t
  | Ev.clickBtn t => t
  | Ev.touchScrim t => t
  | Ev.clickScrim t => t

/-- The menu controller's state: the page, the `ignoreClick` guard flag, and
the pending `setTimeout` deadlines that will clear it. -/
structure MenuState where
  page : PageState
  ignoreClick : Bool
  timers : List Nat
deriving DecidableEq, Repr

end MCC

namespace MCC.V2

/-- Fire every pending `setTimeout(() => ignoreClick = false, 450)` whose
deadline has been reached at time `t`. -/
def fireDue (t : Nat) (m : MCC.MenuState) : MCC.MenuState :=
  if m.timers.any (fun d => d ≤ t) then
    { m with ignoreClick := false, timers := m.timers.filter (fun d => t < d) }
  else m

/-- One event of the v2 wiring: `touchend` on the toggle runs `onToggle`,
sets `ignoreClick` and schedules its reset at `t + 450`; `click` on the
toggle runs `onToggle` unless `ignoreClick` holds; the scrim handlers do the
same with `onClose`.  Due timers fire first. -/
def stepEv (m : MCC.MenuState) (e : MCC.Ev) : MCC.MenuState :=
  let m2 := fireDue e.time m
  match e with
  | MCC.Ev.touchBtn t =>
    { page := toggle m2.page, ignoreClick := true, timers := (t + 450) :: m2.timers }
  | MCC.Ev.clickBtn _ => if m2.ignoreClick then m2 else { m2 with page := toggle m2.page }
  | MCC.Ev.touchScrim t =>
    { page := setOpen false m2.page, ignoreClick := true, timers := (t + 450) :: m2.timers }
  | MCC.Ev.clickScrim _ =>
    if m2.ignoreClick then m2 else { m2 with page := setOpen false m2.page }

/-- A timed event trace against the v2 menu wiring. -/
def runEv (m : MCC.MenuState) (es : List MCC.Ev) : MCC.MenuState := es.foldl stepEv m

end MCC.V2

namespace MCC

/-- A concrete page: menu closed, nothing focused, at the top. -/
def basePage : PageState :=
  { drawerOpen := none, scrimOpen := none, btnExpanded := none, bodyPosition := "",
    bodyTop := "", bodyLeft := "", bodyRight := "", bodyWidth := "",
    htmlScrollBehavior := "", scrollY := 0, lockY := 0,
    activeElement := FocusTarget.otherEl 0, lastFocus := none }

theorem drawerOpen_setOpen (b : Bool) (p : PageState) :
    (V2.setOpen b p).drawerOpen = some (if b then "true" else "false") := by
  cases b <;> simp [V2.setOpen, V2.lock, V2.unlock, V2.safeFocus]

theorem isOpen_setOpen (b : Bool) (p : PageState) : V2.isOpen (V2.setOpen b p) = b := by
  rw [V2.isOpen, drawerOpen_setOpen]
  cases b <;> decide

/-! ## Claim C9 -/

/-- C9 counterexample: the guard window is not honoured across overlapping
touch gestures.  After touches at 0ms and 100ms, a click at 460ms lies
inside the second touch's 450ms window (460 < 550), yet it toggles the
drawer (from closed to open): the timer the first touch scheduled fired at
450ms and cleared the shared `ignoreClick` flag. -/
theorem c9_overlapping_guard_lost :
    (V2.runEv ⟨basePage, false, []⟩ [Ev.touchBtn 0, Ev.touchBtn 100]).page.drawerOpen
        = some "false" ∧
      (V2.runEv ⟨basePage, false, []⟩
          [Ev.touchBtn 0, Ev.touchBtn 100, Ev.clickBtn 460]).page.drawerOpen
        = some "true" ∧
      100 < 460 ∧ 460 < 100 + 450 := by
  refine ⟨?_, ?_, by decide, by decide⟩ <;> decide

/-- C9 (amended): a click is suppressed while the `ignoreClick` guard flag
set by a touch is still set — with overlapping touch gestures the flag is
cleared by the earliest pending 450ms timer, not 450ms after the last touch.
In particular a single touch gesture whose synthesized click arrives within
450ms of the touch toggles the drawer exactly once (the run equals the run
of the touch alone), and once the guard timer has elapsed a click acts
normally again (it toggles, so touch-then-late-click restores the original
drawer state). -/
theorem c9_touch_click_guard :
    (∀ (m : MenuState) (t : Nat), (V2.fireDue t m).ignoreClick = true →
      V2.stepEv m (Ev.clickBtn t) = V2.fireDue t m ∧
        V2.stepEv m (Ev.clickScrim t) = V2.fireDue t m) ∧
      (∀ (p : PageState) (t u : Nat), t ≤ u → u < t + 450 →
        V2.runEv ⟨p, false, []⟩ [Ev.touchBtn t, Ev.clickBtn u]
          = V2.runEv ⟨p, false, []⟩ [Ev.touchBtn t]) ∧
      (∀ (p : PageState) (t u : Nat), t + 450 ≤ u →
        (V2.runEv ⟨p, false, []⟩ [Ev.touchBtn t, Ev.clickBtn u]).page.drawerOpen
          = some (if V2.isOpen p then "true" else "false")) := by
  have hstep1 : ∀ (p : PageState) (t : Nat),
      V2.stepEv ⟨p, false, []⟩ (Ev.touchBtn t)
        = ⟨V2.toggle p, true, [t + 450]⟩ := by
    intro p t
    simp [V2.stepEv, V2.fireDue, Ev.time]
  refine ⟨?_, ?_, ?_⟩
  · intro m t h
    constructor
    · show (if (V2.fireDue (Ev.time (Ev.clickBtn t)) m).ignoreClick
          then V2.fireDue (Ev.time (Ev.clickBtn t)) m
          else { V2.fireDue (Ev.time (Ev.clickBtn t)) m with
            page := V2.toggle (V2.fireDue (Ev.time (Ev.clickBtn t)) m).page })
        = V2.fireDue t m
      rw [show Ev.time (Ev.clickBtn t) = t from rfl, if_pos h]
    · show (if (V2.fireDue (Ev.time (Ev.clickScrim t)) m).ignoreClick
          then V2.fireDue (Ev.time (Ev.clickScrim t)) m
          else { V2.fireDue (Ev.time (Ev.clickScrim t)) m with
            page := V2.setOpen false (V2.fireDue (Ev.time (Ev.clickScrim t)) m).page })
        = V2.fireDue t m
      rw [show Ev.time (Ev.clickScrim t) = t from rfl, if_pos h]
  · intro p t u htu hu
    show V2.stepEv (V2.stepEv ⟨p, false, []⟩ (Ev.touchBtn t)) (Ev.clickBtn u)
      = V2.stepEv ⟨p, false, []⟩ (Ev.touchBtn t)
    rw [hstep1]
    have hfd : V2.fireDue u ⟨V2.toggle p, true, [t + 450]⟩
        = ⟨V2.toggle p, true, [t + 450]⟩ := by
      unfold V2.fireDue
      rw [if_neg]
      simp only [List.any_cons, List.any_nil, Bool.or_false, Bool.not_eq_true,
        decide_eq_false_iff_not]
      omega
    show (if (V2.fireDue (Ev.time (Ev.clickBtn u)) ⟨V2.toggle p, true, [t + 450]⟩).ignoreClick
        then V2.fireDue (Ev.time (Ev.clickBtn u)) ⟨V2.toggle p, true, [t + 450]⟩
        else { V2.fireDue (Ev.time (Ev.clickBtn u)) ⟨V2.toggle p, true, [t + 450]⟩ with
          page := V2.toggle
            (V2.fireDue (Ev.time (Ev.clickBtn u)) ⟨V2.toggle p, true, [t + 450]⟩).page })
      = ⟨V2.toggle p, true, [t + 450]⟩
    rw [show Ev.time (Ev.clickBtn u) = u from rfl, hfd]
    rw [if_pos rfl]
  · intro p t u hu
    show (V2.stepEv (V2.stepEv ⟨p, false, []⟩ (Ev.touchBtn t)) (Ev.clickBtn u)).page.drawerOpen
      = some (if V2.isOpen p then "true" else "false")
    rw [hstep1]
    have hfd : V2.fireDue u ⟨V2.toggle p, true, [t + 450]⟩
        = ⟨V2.toggle p, false, []⟩ := by
      unfold V2.fireDue
      rw [if_pos]
      · have hf : List.filter (fun d => decide (u < d)) [t + 450] = [] := by
          simp only [List.filter_cons, List.filter_nil, decide_eq_true_eq]
          rw [if_neg]
          omega
        simp [hf]
      · simp only [List.any_cons, List.any_nil, Bool.or_false, decide_eq_true_eq]
        omega
    show ((if (V2.fireDue (Ev.time (Ev.clickBtn u)) ⟨V2.toggle p, true, [t + 450]⟩).ignoreClick
        then V2.fireDue (Ev.time (Ev.clickBtn u)) ⟨V2.toggle p, true, [t + 450]⟩
        else { V2.fireDue (Ev.time (Ev.clickBtn u)) ⟨V2.toggle p, true, [t + 450]⟩ with
          page := V2.toggle
            (V2.fireDue (Ev.time (Ev.clickBtn u)) ⟨V2.toggle p, true, [t + 450]⟩).page
          }).page.drawerOpen)
      = some (if V2.isOpen p then "true" else "false")
    rw [show Ev.time (Ev.clickBtn u) = u from rfl, hfd]
    rw [if_neg Bool.false_ne_true]
    show (V2.toggle (V2.toggle p)).drawerOpen = some (if V2.isOpen p then "true" else "false")
    unfold V2.toggle
    rw [drawerOpen_setOpen, isOpen_setOpen]
    cases V2.isOpen p <;> rfl

/-- C9 witness: the amended theorem at the base page — a touch at 0ms with a
synthesized click at 100ms equals the touch alone; with the click at 450ms
the drawer is toggled back; a click arriving while the guard flag holds does
nothing. -/
theorem c9_touch_click_guard_witness :
    V2.runEv ⟨basePage, false, []⟩ [Ev.touchBtn 0, Ev.clickBtn 100]
        = V2.runEv ⟨basePage, false, []⟩ [Ev.touchBtn 0] ∧
      (V2.runEv ⟨basePage, false, []⟩ [Ev.touchBtn 0, Ev.clickBtn 450]).page.drawerOpen
        = some "false" ∧
      V2.stepEv ⟨basePage, true, []⟩ (Ev.clickBtn 7)
        = V2.fireDue 7 ⟨basePage, true, []⟩ := by
  refine ⟨c9_touch_click_guard.2.1 basePage 0 100 (by decide) (by decide), ?_, ?_⟩
  · have h := c9_touch_click_guard.2.2 basePage 0 450 (by decide)
    rw [h]
    decide
  · exact (c9_touch_click_guard.1 ⟨basePage, true, []⟩ 7 (by decide)).1

/-! ## Claim C10: the two revisions agree outside the menu wiring -/

theorem eqSortInsert (x : IEntry) (l : List IEntry) :
    V1.sortInsert x l = V2.sortInsert x l := by
  induction l with
  | nil => rfl
  | cons y ys ih =>
    rw [V1.sortInsert, V2.sortInsert, ih]

theorem eqSortByRatio (l : List IEntry) : V1.sortByRatio l = V2.sortByRatio l := by
  induction l with
  | nil => rfl
  | cons x xs ih =>
    rw [V1.sortByRatio, V2.sortByRatio, ih, eqSortInsert]

theorem eqChooseVisible (entries : List IEntry) :
    V1.chooseVisible entries = V2.chooseVisible entries := by
  rw [V1.chooseVisible, V2.chooseVisible, eqSortByRatio]

mutual

theorem eqProcessNode (pw pre : Bool) (x : Node) :
    V1.processNode pw pre x = V2.processNode pw pre x := by
  cases x with
  | el t cls ch =>
    rw [V1.processNode, V2.processNode,
      eqProcessList (hasWrapClass cls) (pre || t == "pre" || t == "code") ch]

theorem eqProcessList (pw pre : Bool) (l : List Node) :
    V1.processList pw pre l = V2.processList pw pre l := by
  cases l with
  | nil => rfl
  | cons c rest =>
    rw [V1.processList, V2.processList, eqProcessNode pw pre c, eqProcessList pw pre rest]

end

/-- C10: the two shipped revisions are extensionally equal on every embedded
pass other than the mobile-menu event wiring: external-link hardening, the
scroll lock, the header-offset computation, anchor clicks, active-nav
batches, table wrapping, copy-link injection, lazy iframe loading (setup,
callback and `load`), and the promotional chip all map equal inputs to equal
outputs across v1 and v2. -/
theorem c10_revision_equivalence :
    (∀ rel, V1.hardenRel rel = V2.hardenRel rel) ∧
      (∀ s, V1.lock s = V2.lock s) ∧
      (∀ s, V1.unlock s = V2.unlock s) ∧
      (∀ d, V1.headerOffset d = V2.headerOffset d) ∧
      (∀ d href, V1.anchorClick d href = V2.anchorClick d href) ∧
      (∀ links entries flags,
        V1.navBatch links entries flags = V2.navBatch links entries flags) ∧
      (∀ pw pre x, V1.processNode pw pre x = V2.processNode pw pre x) ∧
      (∀ c doc, V1.initCopyLinks c doc = V2.initCopyLinks c doc) ∧
      (∀ su doc, V1.initLazyIframes su doc = V2.initLazyIframes su doc) ∧
      (∀ b f, V1.ioEntryStep b f = V2.ioEntryStep b f) ∧
      (∀ f, V1.load f = V2.load f) ∧
      (∀ bs, V1.initAmazonMetaChip bs = V2.initAmazonMetaChip bs) := by
  refine ⟨fun rel => rfl, fun s => rfl, fun s => rfl, fun d => rfl, ?_, ?_,
    eqProcessNode, fun c doc => rfl, fun su doc => rfl, fun b f => rfl, fun f => rfl,
    fun bs => rfl⟩
  · intro d href
    rw [V1.anchorClick, V2.anchorClick,
      show V1.headerOffset = V2.headerOffset from funext fun d2 => rfl]
  · intro links entries flags
    rw [V1.navBatch, V2.navBatch, eqChooseVisible]

end MCC
